import Mathlib

/-!
Verification of the window-toggle coordinator of `src/internal/operators/windowToggle.ts`.

The coordinator (`WindowToggleSubscriber`) is embedded as a state machine:
window contexts are identified by freshly allocated natural numbers, the
`contexts` array (nullable in the source) becomes an `Option (List Nat)`, and
every externally visible call the coordinator makes (to a window's sink, to a
context's subscription handle, or to the downstream subscriber) is recorded as
an event in a trace.  Fallible paths of the source (property accesses on the
nulled-out `contexts` field, out-of-range array reads) are modelled with
`Option`, `none` standing for a thrown `TypeError`.

The synchronous behaviour of `subscribeToResult` on a closing notifier is made
explicit: while the subscribe call runs, the notifier may reentrantly deliver
`notifyNext` calls (tagged with the context), then either stay open, complete
(`notifyComplete` with the `context` tag still unset), or error
(`notifyError`); the returned subscription is `closed` exactly when the
notifier terminated synchronously.
-/

namespace WindowToggle

/-- Externally visible calls made by the coordinator.  `sinkNext id v`,
`sinkError id e`, `sinkComplete id`, `sinkCancel id` are calls on the window
subject of the context identified by `id` (`next`, `error`, `complete`,
`unsubscribe` respectively); `handleCancel id` is `subscription.unsubscribe()`
on that context's handle; `downNext id` is `destination.next(window)` for the
window of context `id`; `downError` and `downComplete` are the downstream
terminal notifications. -/
inductive Ev where
  | sinkNext (id v : Nat)
  | sinkError (id e : Nat)
  | sinkComplete (id : Nat)
  | sinkCancel (id : Nat)
  | handleCancel (id : Nat)
  | downNext (id : Nat)
  | downError (e : Nat)
  | downComplete
deriving DecidableEq, Repr

/-- State of `WindowToggleSubscriber`: the `contexts` array (`none` models the
`null` sentinel written by the terminal transitions), a counter allocating
fresh context identifiers, and the `isStopped` flag of the underlying
`Subscriber`. -/
structure WTState where
  contexts : Option (List Nat)
  nextId : Nat
  stopped : Bool
deriving DecidableEq, Repr

/-- Synchronous terminal behaviour of a closing notifier during the
`subscribeToResult` call: it may stay open, complete synchronously, or error
synchronously. -/
inductive NotifTerm where
  | stayOpen
  | done
  | err (e : Nat)
deriving DecidableEq, Repr

/-- The returned inner subscription is `closed` iff the notifier terminated
synchronously during subscribe. -/
def NotifTerm.closedSync : NotifTerm → Bool
  | .stayOpen => false
  | .done => true
  | .err _ => true

/-- Whether the synchronous terminal is an error. -/
def NotifTerm.isErr : NotifTerm → Bool
  | .err _ => true
  | _ => false

/-- Outcome of `tryCatch(closingSelector)(innerValue)` together with the
synchronous behaviour of the resulting notifier: either the selector threw
(`fault`), or it returned a notifier that synchronously emits `emits` values
and then behaves as `term`. -/
inductive SelRes where
  | fault (e : Nat)
  | notif (emits : Nat) (term : NotifTerm)
deriving DecidableEq, Repr

/-- First index of `x`, `Array.prototype.indexOf` style (auxiliary). -/
def idxOfAux (x : Nat) : List Nat → Option Nat
  | [] => none
  | y :: ys => if y = x then some 0 else (idxOfAux x ys).map (· + 1)

/-- `contexts.indexOf(x)`: first index of `x`, `-1` when absent. -/
def idxOf (x : Nat) (cs : List Nat) : Int :=
  match idxOfAux x cs with
  | some n => (n : Int)
  | none => -1

/-- `closeWindow(index)` acting on the contexts array: `-1` is an explicit
no-op; otherwise the context at `index` is spliced out, its window completed
and its subscription cancelled.  `none` models the `TypeError` of reading a
nonexistent array slot. -/
def closeWindow (index : Int) (cs : List Nat) : Option (List Nat × List Ev) :=
  if index = -1 then some (cs, [])
  else if index < 0 then none
  else
    match cs.get? index.toNat with
    | some id => some (cs.eraseIdx index.toNat, [Ev.sinkComplete id, Ev.handleCancel id])
    | none => none

/-- `_next(value)`: fan the source value out to every context's window, in
array order; the state is untouched, and a nulled `contexts` makes it a
no-op. -/
def wtNext (v : Nat) (s : WTState) : WTState × List Ev :=
  match s.contexts with
  | none => (s, [])
  | some cs => (s, cs.map (fun id => Ev.sinkNext id v))

/-- `_error(err)`: null out `contexts`, deliver `error` to every previously
active window and cancel its handle, in array order, then
`super._error` (downstream `error`). -/
def wtError (e : Nat) (s : WTState) : WTState × List Ev :=
  match s.contexts with
  | none => ({ s with contexts := none }, [Ev.downError e])
  | some cs =>
    ({ s with contexts := none },
      (cs.flatMap fun id => [Ev.sinkError id e, Ev.handleCancel id]) ++ [Ev.downError e])

/-- `Subscriber.error(err)`: guarded by `isStopped`; sets it before running
`_error`. -/
def errorG (e : Nat) (s : WTState) : WTState × List Ev :=
  if s.stopped then (s, []) else wtError e { s with stopped := true }

/-- `_complete()`: null out `contexts`, `complete` every previously active
window and cancel its handle, in array order, then `super._complete`
(downstream `complete`). -/
def wtComplete (s : WTState) : WTState × List Ev :=
  match s.contexts with
  | none => ({ s with contexts := none }, [Ev.downComplete])
  | some cs =>
    ({ s with contexts := none },
      (cs.flatMap fun id => [Ev.sinkComplete id, Ev.handleCancel id]) ++ [Ev.downComplete])

/-- `Subscriber.complete()`: guarded by `isStopped`. -/
def completeG (s : WTState) : WTState × List Ev :=
  if s.stopped then (s, []) else wtComplete { s with stopped := true }

/-- `_unsubscribe()`: null out `contexts`, `unsubscribe` every previously
active window (cancel, not complete) and cancel its handle, in array order;
nothing is sent downstream. -/
def wtUnsub (s : WTState) : WTState × List Ev :=
  match s.contexts with
  | none => ({ s with contexts := none }, [])
  | some cs =>
    ({ s with contexts := none },
      cs.flatMap fun id => [Ev.sinkCancel id, Ev.handleCancel id])

/-- External cancellation (`unsubscribe()`), guarded: after a terminal the
subscription is already closed and the call is a no-op. -/
def unsubG (s : WTState) : WTState × List Ev :=
  if s.stopped then (s, []) else wtUnsub { s with stopped := true }

/-- The `notifyNext` branch for a closing notifier's emission (the tagged
`outerValue` is the context): `closeWindow(this.contexts.indexOf(outerValue))`.
A nulled `contexts` raises a `TypeError` (`none`). -/
def notifyNextClosing (tag : Nat) (s : WTState) : Option (WTState × List Ev) :=
  match s.contexts with
  | none => none
  | some cs =>
    match closeWindow (idxOf tag cs) cs with
    | none => none
    | some (cs1, evs) => some ({ s with contexts := some cs1 }, evs)

/-- `notifyComplete(inner)`: nothing when `inner` is the openings
subscription; otherwise `closeWindow(this.contexts.indexOf(inner.context))`,
where the `context` tag may still be unset (`none`, JS `undefined`, whose
`indexOf` is `-1`). -/
def notifyComplete (fromOpenings : Bool) (tag : Option Nat) (s : WTState) :
    Option (WTState × List Ev) :=
  if fromOpenings then some (s, [])
  else
    match s.contexts with
    | none => none
    | some cs =>
      match closeWindow (match tag with | none => (-1 : Int) | some t => idxOf t cs) cs with
      | none => none
      | some (cs1, evs) => some ({ s with contexts := some cs1 }, evs)

/-- The `emits` synchronous `next` deliveries of a closing notifier during its
subscribe call, each routed through `notifyNext` with the context tag. -/
def syncNexts (id : Nat) : Nat → WTState → Option (WTState × List Ev)
  | 0, s => some (s, [])
  | k + 1, s =>
    match notifyNextClosing id s with
    | none => none
    | some (s1, evs1) =>
      match syncNexts id k s1 with
      | none => none
      | some (s2, evs2) => some (s2, evs1 ++ evs2)

/-- The full synchronous phase of `subscribeToResult(this, closingNotifier,
context)`: the reentrant `next` deliveries, then the reentrant terminal
(`notifyComplete` with the tag unset, or `notifyError`, i.e. `this.error`). -/
def subscribeSync (id emits : Nat) (term : NotifTerm) (s : WTState) :
    Option (WTState × List Ev) :=
  match syncNexts id emits s with
  | none => none
  | some (s1, evs1) =>
    match term with
    | .stayOpen => some (s1, evs1)
    | .done =>
      match notifyComplete false none s1 with
      | none => none
      | some (s2, evs2) => some (s2, evs1 ++ evs2)
    | .err e =>
      match errorG e s1 with
      | (s2, evs2) => some (s2, evs1 ++ evs2)

/-- `notifyNext` for an openings emission (`outerValue === this.openings`):
run the closing selector under `tryCatch` (a throw becomes `this.error`);
otherwise create a window, push its context, subscribe to the closing
notifier (with its synchronous reentrant deliveries), close the freshly
indexed `contexts.length - 1` window if the returned subscription is closed,
and finally `destination.next(window)`. -/
def notifyNextOpening (sel : SelRes) (s : WTState) : Option (WTState × List Ev) :=
  match sel with
  | .fault e => some (errorG e s)
  | .notif emits term =>
    match s.contexts with
    | none => none
    | some cs =>
      let id := s.nextId
      let s1 : WTState := { s with contexts := some (cs ++ [id]), nextId := id + 1 }
      match subscribeSync id emits term s1 with
      | none => none
      | some (s2, evs) =>
        if term.closedSync then
          match s2.contexts with
          | none => none
          | some cs2 =>
            match closeWindow ((cs2.length : Int) - 1) cs2 with
            | none => none
            | some (cs3, evs2) =>
              some ({ s2 with contexts := some cs3 }, evs ++ evs2 ++ [Ev.downNext id])
        else
          some (s2, evs ++ [Ev.downNext id])

/-- Inbound notifications that can reach the coordinator: source `next`,
source `error`, source `complete`, external cancellation, an openings
emission (with the selector/notifier behaviour), a closing notifier's
asynchronous `next` (tagged with its context), an auxiliary `complete`
(from the openings subscription or from a tagged closing notifier), and an
auxiliary `error` (`notifyError`). -/
inductive Act where
  | srcNext (v : Nat)
  | srcError (e : Nat)
  | srcComplete
  | unsub
  | openingNext (sel : SelRes)
  | closingNext (tag : Nat)
  | auxComplete (fromOpenings : Bool) (tag : Option Nat)
  | auxError (e : Nat)
deriving DecidableEq, Repr

/-- One inbound notification dispatched on a state. -/
def step (a : Act) (s : WTState) : Option (WTState × List Ev) :=
  match a with
  | .srcNext v => some (if s.stopped then (s, []) else wtNext v s)
  | .srcError e => some (errorG e s)
  | .srcComplete => some (completeG s)
  | .unsub => some (unsubG s)
  | .openingNext sel => notifyNextOpening sel s
  | .closingNext t => notifyNextClosing t s
  | .auxComplete b t => notifyComplete b t s
  | .auxError e => some (errorG e s)

/-- A run of the coordinator over a list of inbound notifications,
accumulating the emitted trace; `none` when some step raised. -/
def run (s : WTState) : List Act → Option (WTState × List Ev)
  | [] => some (s, [])
  | a :: as =>
    match step a s with
    | none => none
    | some (s1, evs1) =>
      match run s1 as with
      | none => none
      | some (s2, evs2) => some (s2, evs1 ++ evs2)

/-- State right after construction: empty contexts array, no terminal. -/
def initState : WTState := ⟨some [], 0, false⟩

/-- The active context set: the contexts array, empty at the `null`
sentinel. -/
def active (s : WTState) : List Nat := s.contexts.getD []

end WindowToggle

namespace WindowToggle

/-- The context identifier an event is about, when any. -/
def evId : Ev → Option Nat
  | .sinkNext id _ => some id
  | .sinkError id _ => some id
  | .sinkComplete id => some id
  | .sinkCancel id => some id
  | .handleCancel id => some id
  | .downNext id => some id
  | .downError _ => none
  | .downComplete => none

/-- A terminal notification on the sink of context `id`: `complete`,
`unsubscribe`, or `error`. -/
def isTerm (id : Nat) : Ev → Bool
  | .sinkComplete j => j == id
  | .sinkCancel j => j == id
  | .sinkError j _ => j == id
  | _ => false

/-- A `complete` or `unsubscribe` (cancel) on the sink of context `id`. -/
def isCC (id : Nat) : Ev → Bool
  | .sinkComplete j => j == id
  | .sinkCancel j => j == id
  | _ => false

/-- A `next` on the sink of context `id`. -/
def isNextEv (id : Nat) : Ev → Bool
  | .sinkNext j _ => j == id
  | _ => false

/-- A downstream terminal notification. -/
def isDownTerm : Ev → Bool
  | .downError _ => true
  | .downComplete => true
  | _ => false

/-- A downstream `error` notification. -/
def isDownError : Ev → Bool
  | .downError _ => true
  | _ => false

/-- Any downstream notification. -/
def isDownEv : Ev → Bool
  | .downNext _ => true
  | .downError _ => true
  | .downComplete => true
  | _ => false

/-- A downstream `next` (window delivery). -/
def isDownNext : Ev → Bool
  | .downNext _ => true
  | _ => false

/-- No `bad` event strictly after the first `p` event of the trace. -/
def okAfterP (p bad : Ev → Bool) : List Ev → Bool
  | [] => true
  | e :: tr => if p e then tr.all (fun x => !bad x) else okAfterP p bad tr

theorem okAfterP_cons (p bad : Ev → Bool) (e : Ev) (tr : List Ev) :
    okAfterP p bad (e :: tr) =
      if p e then tr.all (fun x => !bad x) else okAfterP p bad tr := rfl

theorem okAfterP_of_no_bad {p bad : Ev → Bool} {l : List Ev}
    (h : ∀ e ∈ l, bad e = false) : okAfterP p bad l = true := by
  induction l with
  | nil => rfl
  | cons e tr ih =>
    unfold okAfterP
    by_cases hp : p e = true
    · simp only [hp, if_true, List.all_eq_true]
      intro x hx
      simp [h x (List.mem_cons_of_mem _ hx)]
    · simp only [Bool.not_eq_true] at hp
      simp only [hp, Bool.false_eq_true, if_false]
      exact ih fun e he => h e (List.mem_cons_of_mem _ he)

theorem okAfterP_of_no_p {p bad : Ev → Bool} {l : List Ev}
    (h : ∀ e ∈ l, p e = false) : okAfterP p bad l = true := by
  induction l with
  | nil => rfl
  | cons e tr ih =>
    unfold okAfterP
    simp only [h e (List.mem_cons_self e tr), Bool.false_eq_true, if_false]
    exact ih fun e he => h e (List.mem_cons_of_mem _ he)

theorem okAfterP_append_of_no_p_left {p bad : Ev → Bool} {l1 l2 : List Ev}
    (h : ∀ e ∈ l1, p e = false) :
    okAfterP p bad (l1 ++ l2) = okAfterP p bad l2 := by
  induction l1 with
  | nil => rfl
  | cons e tr ih =>
    simp only [List.cons_append, okAfterP_cons]
    simp only [h e (List.mem_cons_self e tr), Bool.false_eq_true, if_false]
    exact ih fun e he => h e (List.mem_cons_of_mem _ he)

theorem okAfterP_append_of_no_bad_right {p bad : Ev → Bool} {l1 l2 : List Ev}
    (h1 : okAfterP p bad l1 = true) (h2 : ∀ e ∈ l2, bad e = false) :
    okAfterP p bad (l1 ++ l2) = true := by
  induction l1 with
  | nil => exact okAfterP_of_no_bad h2
  | cons e tr ih =>
    simp only [List.cons_append]
    unfold okAfterP at h1 ⊢
    by_cases hp : p e = true
    · simp only [hp, if_true, List.all_eq_true] at h1 ⊢
      intro x hx
      rcases List.mem_append.mp hx with hx | hx
      · exact h1 x hx
      · simp [h2 x hx]
    · simp only [Bool.not_eq_true] at hp
      simp only [hp, Bool.false_eq_true, if_false] at h1 ⊢
      exact ih h1

theorem okAfterP_mono {p p' bad : Ev → Bool} {l : List Ev}
    (hmono : ∀ e, p' e = true → p e = true)
    (h : okAfterP p bad l = true) : okAfterP p' bad l = true := by
  induction l with
  | nil => rfl
  | cons e tr ih =>
    unfold okAfterP at h ⊢
    by_cases hp' : p' e = true
    · simp only [hp', if_true]
      have hp : p e = true := hmono e hp'
      simpa only [hp, if_true] using h
    · simp only [Bool.not_eq_true] at hp'
      simp only [hp', Bool.false_eq_true, if_false]
      by_cases hp : p e = true
      · simp only [hp, if_true] at h
        exact okAfterP_of_no_bad (by
          intro x hx
          simpa using (List.all_eq_true.mp h x hx))
      · simp only [Bool.not_eq_true] at hp
        simp only [hp, Bool.false_eq_true, if_false] at h
        exact ih h

theorem countP_eq_zero_of_ids {tr : List Ev} {n : Nat}
    (h : ∀ ev ∈ tr, ∀ j, evId ev = some j → j < n) :
    tr.countP (isTerm n) = 0 := by
  rw [List.countP_eq_zero]
  intro ev hev hterm
  have : evId ev = some n := by
    cases ev <;> simp_all [isTerm, evId]
  exact absurd (h ev hev n this) (Nat.lt_irrefl n)

/-- An `isTerm` event names its context. -/
theorem isTerm_evId {id : Nat} {ev : Ev} (h : isTerm id ev = true) :
    evId ev = some id := by
  cases ev <;> simp_all [isTerm, evId]

end WindowToggle

namespace WindowToggle

theorem active_some (cs : List Nat) (nid : Nat) (st : Bool) :
    active ⟨some cs, nid, st⟩ = cs := rfl

theorem active_none (nid : Nat) (st : Bool) :
    active ⟨none, nid, st⟩ = [] := rfl

/-- Coordinator invariant relating the state to the trace emitted so far:
identifiers in the active set are fresh-bounded and pairwise distinct, an
active context's sink has seen no terminal, a retired (created but inactive)
context's sink has seen at least one, no sink ever sees more than one
terminal or a `next` after one, and at most one downstream terminal is ever
sent (none while the coordinator is live). -/
structure Inv (s : WTState) (tr : List Ev) : Prop where
  nodup : (active s).Nodup
  bound : ∀ id ∈ active s, id < s.nextId
  trBound : ∀ ev ∈ tr, ∀ j, evId ev = some j → j < s.nextId
  activeClean : ∀ id ∈ active s, tr.countP (isTerm id) = 0
  termOnce : ∀ id, tr.countP (isTerm id) ≤ 1
  retired : ∀ id, id < s.nextId → id ∉ active s → 1 ≤ tr.countP (isTerm id)
  afterTerm : ∀ id, okAfterP (isTerm id) (isNextEv id) tr = true
  downOnce : tr.countP isDownTerm ≤ 1
  liveDown : s.stopped = false → tr.countP isDownTerm = 0

theorem inv_append_nil {s : WTState} {tr : List Ev} (h : Inv s tr) :
    Inv s (tr ++ []) := by simpa using h

/-- Closing one active window (splice at a decomposed position, `complete`
its sink, cancel its handle) preserves the invariant. -/
theorem invCloseOne {t d : List Nat} {x nid : Nat} {st : Bool} {tr : List Ev}
    (h : Inv ⟨some (t ++ x :: d), nid, st⟩ tr) :
    Inv ⟨some (t ++ d), nid, st⟩ (tr ++ [Ev.sinkComplete x, Ev.handleCancel x]) := by
  have hx_mem : x ∈ t ++ x :: d := List.mem_append.mpr (Or.inr (List.mem_cons_self x d))
  have hnd : (t ++ x :: d).Nodup := h.nodup
  obtain ⟨hndt, hndxd, hdisj⟩ := List.nodup_append.mp hnd
  have hxd : x ∉ d := (List.nodup_cons.mp hndxd).1
  have hxt : x ∉ t := fun hx => hdisj hx (List.mem_cons_self x d)
  have hmem_sub : ∀ id ∈ t ++ d, id ∈ t ++ x :: d := by
    intro id hid
    rcases List.mem_append.mp hid with hid | hid
    · exact List.mem_append.mpr (Or.inl hid)
    · exact List.mem_append.mpr (Or.inr (List.mem_cons_of_mem _ hid))
  have hne : ∀ id ∈ t ++ d, id ≠ x := by
    intro id hid heq
    subst heq
    rcases List.mem_append.mp hid with hid | hid
    · exact hxt hid
    · exact hxd hid
  have hx_lt : x < nid := h.bound x hx_mem
  have hcnt_evs : ∀ id, List.countP (isTerm id) [Ev.sinkComplete x, Ev.handleCancel x]
      = if x = id then 1 else 0 := by
    intro id
    by_cases hxi : x = id <;> simp [List.countP_cons, isTerm, hxi]
  refine ⟨?_, ?_, ?_, ?_, ?_, ?_, ?_, ?_, ?_⟩
  · exact List.nodup_append.mpr ⟨hndt, (List.nodup_cons.mp hndxd).2,
      fun {a} ha had => hdisj ha (List.mem_cons_of_mem _ had)⟩
  · intro id hid
    exact h.bound id (hmem_sub id hid)
  · intro ev hev j hj
    rcases List.mem_append.mp hev with hev | hev
    · exact h.trBound ev hev j hj
    · simp only [List.mem_cons, List.not_mem_nil, or_false] at hev
      rcases hev with rfl | rfl
      · simp only [evId, Option.some.injEq] at hj
        show j < nid
        omega
      · simp only [evId, Option.some.injEq] at hj
        show j < nid
        omega
  · intro id hid
    rw [List.countP_append, h.activeClean id (hmem_sub id hid),
      hcnt_evs id, if_neg (fun hxe => hne id hid hxe.symm)]
  · intro id
    rw [List.countP_append, hcnt_evs id]
    by_cases hxi : x = id
    · subst hxi
      rw [h.activeClean x hx_mem, if_pos rfl]
    · rw [if_neg hxi]
      have := h.termOnce id
      omega
  · intro id hlt hnin
    rw [List.countP_append, hcnt_evs id]
    by_cases hxi : x = id
    · rw [if_pos hxi]
      omega
    · rw [if_neg hxi]
      have hnin' : id ∉ t ++ x :: d := by
        intro hin
        rcases List.mem_append.mp hin with hin | hin
        · exact hnin (List.mem_append.mpr (Or.inl hin))
        · rcases List.mem_cons.mp hin with hin | hin
          · exact hxi hin.symm
          · exact hnin (List.mem_append.mpr (Or.inr hin))
      have := h.retired id hlt hnin'
      omega
  · intro id
    refine okAfterP_append_of_no_bad_right (h.afterTerm id) ?_
    intro e he
    simp only [List.mem_cons, List.not_mem_nil, or_false] at he
    rcases he with rfl | rfl
    · rfl
    · rfl
  · rw [List.countP_append]
    have hz : List.countP isDownTerm [Ev.sinkComplete x, Ev.handleCancel x] = 0 := by
      simp [List.countP_cons, isDownTerm]
    rw [hz]
    simpa using h.downOnce
  · intro hst
    rw [List.countP_append, h.liveDown hst]
    simp [List.countP_cons, isDownTerm]

end WindowToggle

namespace WindowToggle

/-- A successful indexed read decomposes the list around the read element. -/
theorem get?_decomp : ∀ (cs : List Nat) (m x : Nat), cs.get? m = some x →
    cs = cs.take m ++ x :: cs.drop (m + 1) := by
  intro cs
  induction cs with
  | nil => intro m x h; simp [List.get?] at h
  | cons c cs ih =>
    intro m x h
    cases m with
    | zero =>
      simp only [List.get?] at h
      cases h
      simp
    | succ m =>
      simp only [List.get?] at h
      simpa using ih m x h

/-- Shape of a successful `closeWindow` call: either the `-1` no-op, or the
splice of exactly one position together with the `complete`/`unsubscribe`
pair for the removed context. -/
theorem closeWindow_shape {i : Int} {cs cs1 : List Nat} {evs : List Ev}
    (h : closeWindow i cs = some (cs1, evs)) :
    (cs1 = cs ∧ evs = []) ∨
      ∃ t x d, cs = t ++ x :: d ∧ cs1 = t ++ d ∧
        evs = [Ev.sinkComplete x, Ev.handleCancel x] := by
  unfold closeWindow at h
  by_cases h1 : i = -1
  · rw [if_pos h1] at h
    cases h
    exact Or.inl ⟨rfl, rfl⟩
  · rw [if_neg h1] at h
    by_cases h2 : i < 0
    · rw [if_pos h2] at h
      cases h
    · rw [if_neg h2] at h
      cases hg : cs.get? i.toNat with
      | none => rw [hg] at h; cases h
      | some x =>
        rw [hg] at h
        cases h
        refine Or.inr ⟨cs.take i.toNat, x, cs.drop (i.toNat + 1), get?_decomp cs i.toNat x hg, ?_, rfl⟩
        rw [List.eraseIdx_eq_take_drop_succ]

theorem invCloseWindow {i : Int} {cs cs1 : List Nat} {nid : Nat} {st : Bool}
    {tr : List Ev} {evs : List Ev}
    (h : Inv ⟨some cs, nid, st⟩ tr) (hc : closeWindow i cs = some (cs1, evs)) :
    Inv ⟨some cs1, nid, st⟩ (tr ++ evs) := by
  rcases closeWindow_shape hc with ⟨rfl, rfl⟩ | ⟨t, x, d, rfl, rfl, rfl⟩
  · exact inv_append_nil h
  · exact invCloseOne h

theorem invClosingNext {tag : Nat} {s s1 : WTState} {tr evs : List Ev}
    (h : Inv s tr) (hc : notifyNextClosing tag s = some (s1, evs)) :
    Inv s1 (tr ++ evs) := by
  obtain ⟨co, nid, st⟩ := s
  unfold notifyNextClosing at hc
  cases co with
  | none => cases hc
  | some cs =>
    simp only at hc
    cases hcw : closeWindow (idxOf tag cs) cs with
    | none => rw [hcw] at hc; cases hc
    | some r =>
      obtain ⟨cs1, evs1⟩ := r
      rw [hcw] at hc
      cases hc
      exact invCloseWindow h hcw

theorem invNotifyComplete {b : Bool} {tag : Option Nat} {s s1 : WTState}
    {tr evs : List Ev}
    (h : Inv s tr) (hc : notifyComplete b tag s = some (s1, evs)) :
    Inv s1 (tr ++ evs) := by
  obtain ⟨co, nid, st⟩ := s
  unfold notifyComplete at hc
  cases b with
  | true =>
    rw [if_pos rfl] at hc
    cases hc
    exact inv_append_nil h
  | false =>
    rw [if_neg (by simp)] at hc
    cases co with
    | none => cases hc
    | some cs =>
      simp only at hc
      cases tag with
      | none =>
        cases hcw : closeWindow (-1 : Int) cs with
        | none => rw [hcw] at hc; cases hc
        | some r =>
          obtain ⟨cs1, evs1⟩ := r
          rw [hcw] at hc
          cases hc
          exact invCloseWindow h hcw
      | some t =>
        cases hcw : closeWindow (idxOf t cs) cs with
        | none => rw [hcw] at hc; cases hc
        | some r =>
          obtain ⟨cs1, evs1⟩ := r
          rw [hcw] at hc
          cases hc
          exact invCloseWindow h hcw

theorem nid_closingNext {tag : Nat} {s s1 : WTState} {evs : List Ev}
    (hc : notifyNextClosing tag s = some (s1, evs)) :
    s1.nextId = s.nextId ∧ s1.stopped = s.stopped := by
  obtain ⟨co, nid, st⟩ := s
  unfold notifyNextClosing at hc
  cases co with
  | none => cases hc
  | some cs =>
    simp only at hc
    cases hcw : closeWindow (idxOf tag cs) cs with
    | none => rw [hcw] at hc; cases hc
    | some r =>
      obtain ⟨cs1, evs1⟩ := r
      rw [hcw] at hc
      cases hc
      exact ⟨rfl, rfl⟩

theorem nid_notifyComplete {b : Bool} {tag : Option Nat} {s s1 : WTState}
    {evs : List Ev}
    (hc : notifyComplete b tag s = some (s1, evs)) :
    s1.nextId = s.nextId ∧ s1.stopped = s.stopped := by
  obtain ⟨co, nid, st⟩ := s
  unfold notifyComplete at hc
  cases b with
  | true =>
    rw [if_pos rfl] at hc
    cases hc
    exact ⟨rfl, rfl⟩
  | false =>
    rw [if_neg (by simp)] at hc
    cases co with
    | none => cases hc
    | some cs =>
      simp only at hc
      cases tag with
      | none =>
        cases hcw : closeWindow (-1 : Int) cs with
        | none => rw [hcw] at hc; cases hc
        | some r =>
          obtain ⟨cs1, evs1⟩ := r
          rw [hcw] at hc
          cases hc
          exact ⟨rfl, rfl⟩
      | some t =>
        cases hcw : closeWindow (idxOf t cs) cs with
        | none => rw [hcw] at hc; cases hc
        | some r =>
          obtain ⟨cs1, evs1⟩ := r
          rw [hcw] at hc
          cases hc
          exact ⟨rfl, rfl⟩

theorem nid_errorG (e : Nat) (s : WTState) : (errorG e s).1.nextId = s.nextId := by
  obtain ⟨co, nid, st⟩ := s
  unfold errorG wtError
  cases st <;> cases co <;> rfl

end WindowToggle

namespace WindowToggle

theorem countP_isTerm_pairBatch (g : Nat → Ev)
    (hg : ∀ j id', isTerm id' (g j) = (j == id')) (id : Nat) :
    ∀ cs : List Nat,
      (cs.flatMap fun j => [g j, Ev.handleCancel j]).countP (isTerm id) = cs.count id := by
  intro cs
  induction cs with
  | nil => rfl
  | cons c cs ih =>
    rw [List.flatMap_cons, List.countP_append, ih]
    have h2 : List.countP (isTerm id) [g c, Ev.handleCancel c]
        = if c = id then 1 else 0 := by
      rw [List.countP_cons, List.countP_cons, List.countP_nil, hg c id]
      by_cases hci : c = id <;> simp [isTerm, hci]
    rw [h2, List.count_cons]
    by_cases hci : c = id <;> simp [hci] <;> omega

theorem pairBatch_no_next (g : Nat → Ev)
    (hg : ∀ j id', isNextEv id' (g j) = false) (id : Nat) (cs : List Nat) :
    ∀ ev ∈ cs.flatMap fun j => [g j, Ev.handleCancel j], isNextEv id ev = false := by
  intro ev hev
  rcases List.mem_flatMap.mp hev with ⟨j, _, hj⟩
  simp only [List.mem_cons, List.not_mem_nil, or_false] at hj
  rcases hj with rfl | rfl
  · exact hg j id
  · rfl

theorem pairBatch_ids (g : Nat → Ev)
    (hg : ∀ j, evId (g j) = some j) (cs : List Nat) :
    ∀ ev ∈ cs.flatMap fun j => [g j, Ev.handleCancel j],
      ∀ k, evId ev = some k → k ∈ cs := by
  intro ev hev k hk
  rcases List.mem_flatMap.mp hev with ⟨j, hjcs, hj⟩
  simp only [List.mem_cons, List.not_mem_nil, or_false] at hj
  rcases hj with rfl | rfl
  · rw [hg j] at hk
    cases hk
    exact hjcs
  · simp only [evId, Option.some.injEq] at hk
    cases hk
    exact hjcs

theorem pairBatch_no_downTerm (g : Nat → Ev)
    (hg : ∀ j, isDownTerm (g j) = false) (cs : List Nat) :
    (cs.flatMap fun j => [g j, Ev.handleCancel j]).countP isDownTerm = 0 := by
  rw [List.countP_eq_zero]
  intro ev hev
  rcases List.mem_flatMap.mp hev with ⟨j, _, hj⟩
  simp only [List.mem_cons, List.not_mem_nil, or_false] at hj
  rcases hj with rfl | rfl
  · simp [hg j]
  · simp [isDownTerm]

/-- Generic terminal transition: nulling `contexts` and sending one sink
terminal plus a handle cancellation per previously active context, followed
by at most one downstream terminal, preserves the invariant. -/
theorem invTerminal {cs : List Nat} {nid : Nat} {tr : List Ev}
    (g : Nat → Ev) (down : List Ev)
    (hg_term : ∀ j id', isTerm id' (g j) = (j == id'))
    (hg_id : ∀ j, evId (g j) = some j)
    (hg_next : ∀ j id', isNextEv id' (g j) = false)
    (hg_down : ∀ j, isDownTerm (g j) = false)
    (hdown_term : ∀ ev ∈ down, ∀ id, isTerm id ev = false)
    (hdown_next : ∀ ev ∈ down, ∀ id, isNextEv id ev = false)
    (hdown_id : ∀ ev ∈ down, evId ev = none)
    (hdown_count : down.countP isDownTerm ≤ 1)
    (h : Inv ⟨some cs, nid, false⟩ tr) :
    Inv ⟨none, nid, true⟩
      (tr ++ ((cs.flatMap fun j => [g j, Ev.handleCancel j]) ++ down)) := by
  have hdown_cnt_term : ∀ id, down.countP (isTerm id) = 0 := by
    intro id
    rw [List.countP_eq_zero]
    intro ev hev
    simp [hdown_term ev hev id]
  refine ⟨?_, ?_, ?_, ?_, ?_, ?_, ?_, ?_, ?_⟩
  · exact List.nodup_nil
  · intro id hid
    simp [active_none] at hid
  · intro ev hev j hj
    show j < nid
    rcases List.mem_append.mp hev with hev | hev
    · exact h.trBound ev hev j hj
    · rcases List.mem_append.mp hev with hev | hev
      · exact h.bound j (pairBatch_ids g hg_id cs ev hev j hj)
      · rw [hdown_id ev hev] at hj
        cases hj
  · intro id hid
    simp [active_none] at hid
  · intro id
    rw [List.countP_append, List.countP_append,
      countP_isTerm_pairBatch g hg_term id cs, hdown_cnt_term id]
    by_cases hmem : id ∈ cs
    · rw [h.activeClean id hmem]
      have hnd : cs.Nodup := h.nodup
      have := List.nodup_iff_count_le_one.mp hnd id
      omega
    · rw [List.count_eq_zero_of_not_mem hmem]
      have := h.termOnce id
      omega
  · intro id hlt _
    rw [List.countP_append, List.countP_append,
      countP_isTerm_pairBatch g hg_term id cs, hdown_cnt_term id]
    by_cases hmem : id ∈ cs
    · have := List.count_pos_iff.mpr hmem
      omega
    · have := h.retired id hlt hmem
      omega
  · intro id
    refine okAfterP_append_of_no_bad_right (h.afterTerm id) ?_
    intro e he
    rcases List.mem_append.mp he with he | he
    · exact pairBatch_no_next g hg_next id cs e he
    · exact hdown_next e he id
  · rw [List.countP_append, List.countP_append,
      pairBatch_no_downTerm g hg_down cs, h.liveDown rfl]
    omega
  · intro hst
    cases hst

end WindowToggle

namespace WindowToggle

/-- Appending events that are neither sink terminals, sink `next`s, downstream
terminals, nor about any identifier at or above `nextId`, preserves the
invariant without touching the state. -/
theorem invAppendDownNext {s : WTState} {tr : List Ev} {id : Nat}
    (h : Inv s tr) (hid : id < s.nextId) :
    Inv s (tr ++ [Ev.downNext id]) := by
  refine ⟨h.nodup, h.bound, ?_, ?_, ?_, ?_, ?_, ?_, ?_⟩
  · intro ev hev j hj
    rcases List.mem_append.mp hev with hev | hev
    · exact h.trBound ev hev j hj
    · simp only [List.mem_cons, List.not_mem_nil, or_false] at hev
      subst hev
      simp only [evId, Option.some.injEq] at hj
      omega
  · intro i hi
    rw [List.countP_append, h.activeClean i hi]
    simp [isTerm]
  · intro i
    rw [List.countP_append]
    have h1 : List.countP (isTerm i) [Ev.downNext id] = 0 := by simp [isTerm]
    rw [h1]
    simpa using h.termOnce i
  · intro i hlt hnin
    rw [List.countP_append]
    have := h.retired i hlt hnin
    omega
  · intro i
    exact okAfterP_append_of_no_bad_right (h.afterTerm i)
      (by intro e he; simp only [List.mem_cons, List.not_mem_nil, or_false] at he; subst he; rfl)
  · rw [List.countP_append]
    have h1 : List.countP isDownTerm [Ev.downNext id] = 0 := by simp [isDownTerm]
    rw [h1]
    simpa using h.downOnce
  · intro hst
    rw [List.countP_append, h.liveDown hst]
    simp [isDownTerm]

/-- Pushing a freshly allocated context preserves the invariant. -/
theorem invPush {cs : List Nat} {nid : Nat} {st : Bool} {tr : List Ev}
    (h : Inv ⟨some cs, nid, st⟩ tr) :
    Inv ⟨some (cs ++ [nid]), nid + 1, st⟩ tr := by
  have hfresh : nid ∉ cs := fun hmem => absurd (h.bound nid hmem) (Nat.lt_irrefl nid)
  refine ⟨?_, ?_, ?_, ?_, h.termOnce, ?_, h.afterTerm, h.downOnce, h.liveDown⟩
  · refine List.nodup_append.mpr ⟨h.nodup, List.nodup_singleton nid, ?_⟩
    intro a ha hb
    simp only [List.mem_singleton] at hb
    subst hb
    exact hfresh ha
  · intro id hid
    show id < nid + 1
    rcases List.mem_append.mp hid with hid | hid
    · have : id < nid := h.bound id hid
      omega
    · simp only [List.mem_singleton] at hid
      omega
  · intro ev hev j hj
    show j < nid + 1
    have : j < nid := h.trBound ev hev j hj
    omega
  · intro id hid
    rcases List.mem_append.mp hid with hid | hid
    · exact h.activeClean id hid
    · simp only [List.mem_singleton] at hid
      subst hid
      exact countP_eq_zero_of_ids h.trBound
  · intro id hlt hnin
    show 1 ≤ tr.countP (isTerm id)
    have hninl : id ∉ cs := fun hmem => hnin (List.mem_append.mpr (Or.inl hmem))
    have hne : id ≠ nid := fun heq => hnin (List.mem_append.mpr (Or.inr (by simp [heq])))
    have hlt' : id < nid + 1 := hlt
    exact h.retired id (by show id < nid; omega) hninl

/-- The source fan-out (`_next`) preserves the invariant. -/
theorem invWtNext {s : WTState} {tr : List Ev} (v : Nat) (h : Inv s tr) :
    Inv (wtNext v s).1 (tr ++ (wtNext v s).2) := by
  obtain ⟨co, nid, st⟩ := s
  cases co with
  | none => exact inv_append_nil h
  | some cs =>
    show Inv ⟨some cs, nid, st⟩ (tr ++ cs.map fun id => Ev.sinkNext id v)
    have hno_term : ∀ id, ∀ ev ∈ cs.map (fun id => Ev.sinkNext id v),
        isTerm id ev = false := by
      intro id ev hev
      rcases List.mem_map.mp hev with ⟨j, _, rfl⟩
      rfl
    have hcnt : ∀ id, (cs.map fun id => Ev.sinkNext id v).countP (isTerm id) = 0 := by
      intro id
      rw [List.countP_eq_zero]
      intro ev hev
      simp [hno_term id ev hev]
    refine ⟨h.nodup, h.bound, ?_, ?_, ?_, ?_, ?_, ?_, ?_⟩
    · intro ev hev j hj
      rcases List.mem_append.mp hev with hev | hev
      · exact h.trBound ev hev j hj
      · rcases List.mem_map.mp hev with ⟨k, hk, rfl⟩
        simp only [evId, Option.some.injEq] at hj
        subst hj
        exact h.bound k hk
    · intro id hid
      rw [List.countP_append, h.activeClean id hid, hcnt id]
    · intro id
      rw [List.countP_append, hcnt id]
      simpa using h.termOnce id
    · intro id hlt hnin
      rw [List.countP_append]
      have := h.retired id hlt hnin
      omega
    · intro id
      by_cases hz : tr.countP (isTerm id) = 0
      · rw [okAfterP_append_of_no_p_left (fun e he => by
          have := (List.countP_eq_zero.mp hz) e he
          simpa using this)]
        exact okAfterP_of_no_p (hno_term id)
      · have hnin : id ∉ cs := fun hmem => hz (h.activeClean id hmem)
        refine okAfterP_append_of_no_bad_right (h.afterTerm id) ?_
        intro e he
        rcases List.mem_map.mp he with ⟨j, hj, rfl⟩
        have hne : j ≠ id := fun heq => hnin (heq ▸ hj)
        simp [isNextEv, hne]
    · rw [List.countP_append]
      have h1 : (cs.map fun id => Ev.sinkNext id v).countP isDownTerm = 0 := by
        rw [List.countP_eq_zero]
        intro e he
        rcases List.mem_map.mp he with ⟨j, _, rfl⟩
        simp [isDownTerm]
      rw [h1]
      simpa using h.downOnce
    · intro hst
      rw [List.countP_append, h.liveDown hst]
      have h1 : (cs.map fun id => Ev.sinkNext id v).countP isDownTerm = 0 := by
        rw [List.countP_eq_zero]
        intro e he
        rcases List.mem_map.mp he with ⟨j, _, rfl⟩
        simp [isDownTerm]
      rw [h1]

end WindowToggle

namespace WindowToggle

theorem invErrorG {s : WTState} {tr : List Ev} (e : Nat) (h : Inv s tr) :
    Inv (errorG e s).1 (tr ++ (errorG e s).2) := by
  obtain ⟨co, nid, st⟩ := s
  cases st with
  | true => exact inv_append_nil h
  | false =>
    cases co with
    | none =>
      show Inv ⟨none, nid, true⟩ (tr ++ [Ev.downError e])
      refine ⟨List.nodup_nil, ?_, ?_, ?_, ?_, ?_, ?_, ?_, ?_⟩
      · intro id hid
        simp [active_none] at hid
      · intro ev hev j hj
        show j < nid
        rcases List.mem_append.mp hev with hev | hev
        · exact h.trBound ev hev j hj
        · simp only [List.mem_cons, List.not_mem_nil, or_false] at hev
          subst hev
          cases hj
      · intro id hid
        simp [active_none] at hid
      · intro id
        rw [List.countP_append]
        have h1 : List.countP (isTerm id) [Ev.downError e] = 0 := by simp [isTerm]
        rw [h1]
        simpa using h.termOnce id
      · intro id hlt hnin
        rw [List.countP_append]
        have hnin0 : id ∉ active (⟨none, nid, false⟩ : WTState) := by
          simp [active_none]
        have := h.retired id hlt hnin0
        omega
      · intro id
        refine okAfterP_append_of_no_bad_right (h.afterTerm id) ?_
        intro ev hev
        simp only [List.mem_cons, List.not_mem_nil, or_false] at hev
        subst hev
        rfl
      · rw [List.countP_append, h.liveDown rfl]
        simp [isDownTerm]
      · intro hst
        cases hst
    | some cs =>
      show Inv ⟨none, nid, true⟩
        (tr ++ ((cs.flatMap fun j => [Ev.sinkError j e, Ev.handleCancel j]) ++ [Ev.downError e]))
      exact invTerminal (fun j => Ev.sinkError j e) [Ev.downError e]
        (fun j id' => rfl) (fun j => rfl) (fun j id' => rfl) (fun j => rfl)
        (by intro ev hev id
            simp only [List.mem_cons, List.not_mem_nil, or_false] at hev
            subst hev; rfl)
        (by intro ev hev id
            simp only [List.mem_cons, List.not_mem_nil, or_false] at hev
            subst hev; rfl)
        (by intro ev hev
            simp only [List.mem_cons, List.not_mem_nil, or_false] at hev
            subst hev; rfl)
        (by simp [isDownTerm])
        h

theorem invCompleteG {s : WTState} {tr : List Ev} (h : Inv s tr) :
    Inv (completeG s).1 (tr ++ (completeG s).2) := by
  obtain ⟨co, nid, st⟩ := s
  cases st with
  | true => exact inv_append_nil h
  | false =>
    cases co with
    | none =>
      show Inv ⟨none, nid, true⟩ (tr ++ [Ev.downComplete])
      refine ⟨List.nodup_nil, ?_, ?_, ?_, ?_, ?_, ?_, ?_, ?_⟩
      · intro id hid
        simp [active_none] at hid
      · intro ev hev j hj
        show j < nid
        rcases List.mem_append.mp hev with hev | hev
        · exact h.trBound ev hev j hj
        · simp only [List.mem_cons, List.not_mem_nil, or_false] at hev
          subst hev
          cases hj
      · intro id hid
        simp [active_none] at hid
      · intro id
        rw [List.countP_append]
        have h1 : List.countP (isTerm id) [Ev.downComplete] = 0 := by simp [isTerm]
        rw [h1]
        simpa using h.termOnce id
      · intro id hlt hnin
        rw [List.countP_append]
        have hnin0 : id ∉ active (⟨none, nid, false⟩ : WTState) := by
          simp [active_none]
        have := h.retired id hlt hnin0
        omega
      · intro id
        refine okAfterP_append_of_no_bad_right (h.afterTerm id) ?_
        intro ev hev
        simp only [List.mem_cons, List.not_mem_nil, or_false] at hev
        subst hev
        rfl
      · rw [List.countP_append, h.liveDown rfl]
        simp [isDownTerm]
      · intro hst
        cases hst
    | some cs =>
      show Inv ⟨none, nid, true⟩
        (tr ++ ((cs.flatMap fun j => [Ev.sinkComplete j, Ev.handleCancel j]) ++ [Ev.downComplete]))
      exact invTerminal Ev.sinkComplete [Ev.downComplete]
        (fun j id' => rfl) (fun j => rfl) (fun j id' => rfl) (fun j => rfl)
        (by intro ev hev id
            simp only [List.mem_cons, List.not_mem_nil, or_false] at hev
            subst hev; rfl)
        (by intro ev hev id
            simp only [List.mem_cons, List.not_mem_nil, or_false] at hev
            subst hev; rfl)
        (by intro ev hev
            simp only [List.mem_cons, List.not_mem_nil, or_false] at hev
            subst hev; rfl)
        (by simp [isDownTerm])
        h

theorem invUnsubG {s : WTState} {tr : List Ev} (h : Inv s tr) :
    Inv (unsubG s).1 (tr ++ (unsubG s).2) := by
  obtain ⟨co, nid, st⟩ := s
  cases st with
  | true => exact inv_append_nil h
  | false =>
    cases co with
    | none =>
      show Inv ⟨none, nid, true⟩ (tr ++ [])
      refine ⟨List.nodup_nil, ?_, ?_, ?_, ?_, ?_, ?_, ?_, ?_⟩
      · intro id hid
        simp [active_none] at hid
      · intro ev hev j hj
        show j < nid
        exact h.trBound ev (by simpa using hev) j hj
      · intro id hid
        simp [active_none] at hid
      · intro id
        simpa using h.termOnce id
      · intro id hlt hnin
        have hnin0 : id ∉ active (⟨none, nid, false⟩ : WTState) := by
          simp [active_none]
        simpa using h.retired id hlt hnin0
      · intro id
        simpa using h.afterTerm id
      · simpa using h.downOnce
      · intro hst
        cases hst
    | some cs =>
      show Inv ⟨none, nid, true⟩
        (tr ++ (cs.flatMap fun j => [Ev.sinkCancel j, Ev.handleCancel j]))
      have := invTerminal Ev.sinkCancel []
        (fun j id' => rfl) (fun j => rfl) (fun j id' => rfl) (fun j => rfl)
        (by intro ev hev id; simp at hev)
        (by intro ev hev id; simp at hev)
        (by intro ev hev; simp at hev)
        (by simp)
        h
      simpa using this

end WindowToggle

namespace WindowToggle

theorem invSyncNexts {id : Nat} : ∀ (k : Nat) {s s1 : WTState} {tr evs : List Ev},
    Inv s tr → syncNexts id k s = some (s1, evs) → Inv s1 (tr ++ evs) := by
  intro k
  induction k with
  | zero =>
    intro s s1 tr evs h hs
    unfold syncNexts at hs
    cases hs
    exact inv_append_nil h
  | succ k ih =>
    intro s s1 tr evs h hs
    unfold syncNexts at hs
    cases hc : notifyNextClosing id s with
    | none => rw [hc] at hs; cases hs
    | some r =>
      obtain ⟨sa, evsa⟩ := r
      rw [hc] at hs
      simp only at hs
      cases hr : syncNexts id k sa with
      | none => rw [hr] at hs; cases hs
      | some r2 =>
        obtain ⟨sb, evsb⟩ := r2
        rw [hr] at hs
        cases hs
        have h1 := invClosingNext h hc
        have h2 := ih h1 hr
        simpa [List.append_assoc] using h2

theorem nid_syncNexts {id : Nat} : ∀ (k : Nat) {s s1 : WTState} {evs : List Ev},
    syncNexts id k s = some (s1, evs) → s1.nextId = s.nextId ∧ s1.stopped = s.stopped := by
  intro k
  induction k with
  | zero =>
    intro s s1 evs hs
    unfold syncNexts at hs
    cases hs
    exact ⟨rfl, rfl⟩
  | succ k ih =>
    intro s s1 evs hs
    unfold syncNexts at hs
    cases hc : notifyNextClosing id s with
    | none => rw [hc] at hs; cases hs
    | some r =>
      obtain ⟨sa, evsa⟩ := r
      rw [hc] at hs
      simp only at hs
      cases hr : syncNexts id k sa with
      | none => rw [hr] at hs; cases hs
      | some r2 =>
        obtain ⟨sb, evsb⟩ := r2
        rw [hr] at hs
        cases hs
        obtain ⟨ha1, ha2⟩ := nid_closingNext hc
        obtain ⟨hb1, hb2⟩ := ih hr
        exact ⟨hb1.trans ha1, hb2.trans ha2⟩

theorem invSubscribeSync {id emits : Nat} {term : NotifTerm} {s s1 : WTState}
    {tr evs : List Ev}
    (h : Inv s tr) (hs : subscribeSync id emits term s = some (s1, evs)) :
    Inv s1 (tr ++ evs) := by
  unfold subscribeSync at hs
  cases hn : syncNexts id emits s with
  | none => rw [hn] at hs; cases hs
  | some r =>
    obtain ⟨sa, evsa⟩ := r
    rw [hn] at hs
    have hA := invSyncNexts emits h hn
    cases term with
    | stayOpen =>
      cases hs
      exact hA
    | done =>
      simp only at hs
      cases hc : notifyComplete false none sa with
      | none => rw [hc] at hs; cases hs
      | some r2 =>
        obtain ⟨sb, evsb⟩ := r2
        rw [hc] at hs
        cases hs
        simpa [List.append_assoc] using invNotifyComplete hA hc
    | err e =>
      simp only at hs
      cases hs
      simpa [List.append_assoc] using invErrorG e hA

theorem nid_subscribeSync {id emits : Nat} {term : NotifTerm} {s s1 : WTState}
    {evs : List Ev}
    (hs : subscribeSync id emits term s = some (s1, evs)) :
    s1.nextId = s.nextId := by
  unfold subscribeSync at hs
  cases hn : syncNexts id emits s with
  | none => rw [hn] at hs; cases hs
  | some r =>
    obtain ⟨sa, evsa⟩ := r
    rw [hn] at hs
    obtain ⟨ha, _⟩ := nid_syncNexts emits hn
    cases term with
    | stayOpen =>
      cases hs
      exact ha
    | done =>
      simp only at hs
      cases hc : notifyComplete false none sa with
      | none => rw [hc] at hs; cases hs
      | some r2 =>
        obtain ⟨sb, evsb⟩ := r2
        rw [hc] at hs
        cases hs
        exact (nid_notifyComplete hc).1.trans ha
    | err e =>
      simp only at hs
      cases hs
      exact (nid_errorG e sa).trans ha

end WindowToggle

namespace WindowToggle

theorem invOpening {sel : SelRes} {s s1 : WTState} {tr evs : List Ev}
    (h : Inv s tr) (ho : notifyNextOpening sel s = some (s1, evs)) :
    Inv s1 (tr ++ evs) := by
  obtain ⟨co, nid, st⟩ := s
  cases sel with
  | fault e =>
    unfold notifyNextOpening at ho
    simp only at ho
    rcases hEG : errorG e ⟨co, nid, st⟩ with ⟨sa, evsa⟩
    rw [hEG] at ho
    cases ho
    have := invErrorG e h
    rw [hEG] at this
    exact this
  | notif emits term =>
    unfold notifyNextOpening at ho
    cases co with
    | none => cases ho
    | some cs =>
      simp only at ho
      cases hsub : subscribeSync nid emits term
          ⟨some (cs ++ [nid]), nid + 1, st⟩ with
      | none => rw [hsub] at ho; cases ho
      | some r =>
        obtain ⟨s2, evsa⟩ := r
        rw [hsub] at ho
        simp only at ho
        have hInv2 : Inv s2 (tr ++ evsa) := invSubscribeSync (invPush h) hsub
        have hnid2 : s2.nextId = nid + 1 := nid_subscribeSync hsub
        cases hcl : term.closedSync with
        | false =>
          rw [hcl] at ho
          simp only [Bool.false_eq_true, if_false] at ho
          have hlt : nid < s2.nextId := by omega
          have hInvD := invAppendDownNext hInv2 hlt
          cases ho
          simpa [List.append_assoc] using hInvD
        | true =>
          rw [hcl] at ho
          simp only [if_true] at ho
          obtain ⟨co2, nid2, st2⟩ := s2
          cases co2 with
          | none => cases ho
          | some cs2 =>
            simp only at ho
            cases hcw : closeWindow ((cs2.length : Int) - 1) cs2 with
            | none => rw [hcw] at ho; cases ho
            | some r2 =>
              obtain ⟨cs3, evs2⟩ := r2
              rw [hcw] at ho
              cases ho
              have hInv3 : Inv ⟨some cs3, nid2, st2⟩ ((tr ++ evsa) ++ evs2) :=
                invCloseWindow hInv2 hcw
              have hnid : nid < nid2 := by
                simp only at hnid2
                omega
              have := invAppendDownNext hInv3 hnid
              simpa [List.append_assoc] using this

theorem invStep {a : Act} {s s1 : WTState} {tr evs : List Ev}
    (h : Inv s tr) (hs : step a s = some (s1, evs)) :
    Inv s1 (tr ++ evs) := by
  cases a with
  | srcNext v =>
    unfold step at hs
    simp only at hs
    by_cases hst : s.stopped = true
    · rw [if_pos hst] at hs
      cases hs
      exact inv_append_nil h
    · rw [if_neg hst] at hs
      rcases hW : wtNext v s with ⟨sa, evsa⟩
      rw [hW] at hs
      cases hs
      have := invWtNext v h
      rw [hW] at this
      exact this
  | srcError e =>
    unfold step at hs
    simp only at hs
    rcases hEG : errorG e s with ⟨sa, evsa⟩
    rw [hEG] at hs
    cases hs
    have := invErrorG e h
    rw [hEG] at this
    exact this
  | srcComplete =>
    unfold step at hs
    simp only at hs
    rcases hEG : completeG s with ⟨sa, evsa⟩
    rw [hEG] at hs
    cases hs
    have := invCompleteG h
    rw [hEG] at this
    exact this
  | unsub =>
    unfold step at hs
    simp only at hs
    rcases hEG : unsubG s with ⟨sa, evsa⟩
    rw [hEG] at hs
    cases hs
    have := invUnsubG h
    rw [hEG] at this
    exact this
  | openingNext sel => exact invOpening h hs
  | closingNext t => exact invClosingNext h hs
  | auxComplete b t => exact invNotifyComplete h hs
  | auxError e =>
    unfold step at hs
    simp only at hs
    rcases hEG : errorG e s with ⟨sa, evsa⟩
    rw [hEG] at hs
    cases hs
    have := invErrorG e h
    rw [hEG] at this
    exact this

theorem invRun : ∀ (as : List Act) {s s1 : WTState} {tr evs : List Ev},
    Inv s tr → run s as = some (s1, evs) → Inv s1 (tr ++ evs) := by
  intro as
  induction as with
  | nil =>
    intro s s1 tr evs h hr
    unfold run at hr
    cases hr
    exact inv_append_nil h
  | cons a as ih =>
    intro s s1 tr evs h hr
    unfold run at hr
    cases hstp : step a s with
    | none => rw [hstp] at hr; cases hr
    | some r =>
      obtain ⟨sa, evsa⟩ := r
      rw [hstp] at hr
      simp only at hr
      cases hrest : run sa as with
      | none => rw [hrest] at hr; cases hr
      | some r2 =>
        obtain ⟨sb, evsb⟩ := r2
        rw [hrest] at hr
        cases hr
        have h1 := invStep h hstp
        have h2 := ih h1 hrest
        simpa [List.append_assoc] using h2

theorem invInit : Inv initState [] := by
  refine ⟨List.nodup_nil, ?_, ?_, ?_, ?_, ?_, ?_, ?_, ?_⟩
  · intro id hid
    simp [initState, active] at hid
  · intro ev hev
    simp at hev
  · intro id hid
    simp [initState, active] at hid
  · intro id
    simp
  · intro id hlt _
    simp [initState] at hlt
  · intro id
    rfl
  · simp
  · intro _
    simp

/-- Invariant at the end of any successful run from the initial state. -/
theorem invOfRun {as : List Act} {s1 : WTState} {tr : List Ev}
    (hr : run initState as = some (s1, tr)) : Inv s1 tr := by
  have := invRun as invInit hr
  simpa using this

end WindowToggle

namespace WindowToggle

theorem errorG_live (cs : List Nat) (nid e : Nat) :
    errorG e ⟨some cs, nid, false⟩ =
      (⟨none, nid, true⟩,
        (cs.flatMap fun id => [Ev.sinkError id e, Ev.handleCancel id]) ++ [Ev.downError e]) := rfl

theorem errorG_stopped (co : Option (List Nat)) (nid e : Nat) :
    errorG e ⟨co, nid, true⟩ = (⟨co, nid, true⟩, []) := rfl

theorem completeG_live (cs : List Nat) (nid : Nat) :
    completeG ⟨some cs, nid, false⟩ =
      (⟨none, nid, true⟩,
        (cs.flatMap fun id => [Ev.sinkComplete id, Ev.handleCancel id]) ++ [Ev.downComplete]) := rfl

theorem unsubG_live (cs : List Nat) (nid : Nat) :
    unsubG ⟨some cs, nid, false⟩ =
      (⟨none, nid, true⟩,
        cs.flatMap fun id => [Ev.sinkCancel id, Ev.handleCancel id]) := rfl

theorem closeWindow_neg_one (cs : List Nat) : closeWindow (-1) cs = some (cs, []) := rfl

theorem get?_append_len : ∀ (t : List Nat) (x : Nat) (d : List Nat),
    (t ++ x :: d).get? t.length = some x := by
  intro t
  induction t with
  | nil => intro x d; rfl
  | cons c t ih => intro x d; simpa using ih x d

theorem eraseIdx_append_len : ∀ (t : List Nat) (x : Nat) (d : List Nat),
    (t ++ x :: d).eraseIdx t.length = t ++ d := by
  intro t
  induction t with
  | nil => intro x d; rfl
  | cons c t ih =>
    intro x d
    show c :: (t ++ x :: d).eraseIdx t.length = c :: (t ++ d)
    rw [ih x d]

theorem closeWindow_append (t : List Nat) (x : Nat) (d : List Nat) :
    closeWindow (t.length : Int) (t ++ x :: d) =
      some (t ++ d, [Ev.sinkComplete x, Ev.handleCancel x]) := by
  unfold closeWindow
  rw [if_neg (by omega), if_neg (by omega)]
  have h1 : ((t.length : Int)).toNat = t.length := by omega
  rw [h1, get?_append_len, eraseIdx_append_len]

theorem idxOfAux_found : ∀ (t : List Nat) (x : Nat) (d : List Nat), x ∉ t →
    idxOfAux x (t ++ x :: d) = some t.length := by
  intro t
  induction t with
  | nil =>
    intro x d _
    show idxOfAux x (x :: d) = some 0
    unfold idxOfAux
    rw [if_pos rfl]
  | cons c t ih =>
    intro x d hx
    have hcx : c ≠ x := fun h => hx (h ▸ List.mem_cons_self c t)
    show idxOfAux x (c :: (t ++ x :: d)) = some (t.length + 1)
    unfold idxOfAux
    rw [if_neg hcx, ih x d (fun h => hx (List.mem_cons_of_mem _ h))]
    rfl

theorem idxOf_found (t : List Nat) (x : Nat) (d : List Nat) (hx : x ∉ t) :
    idxOf x (t ++ x :: d) = (t.length : Int) := by
  unfold idxOf
  rw [idxOfAux_found t x d hx]

theorem idxOfAux_get : ∀ (cs : List Nat) (x n : Nat),
    idxOfAux x cs = some n → cs.get? n = some x := by
  intro cs
  induction cs with
  | nil => intro x n h; simp [idxOfAux] at h
  | cons c cs ih =>
    intro x n h
    unfold idxOfAux at h
    by_cases hcx : c = x
    · rw [if_pos hcx] at h
      cases h
      simp [hcx]
    · rw [if_neg hcx] at h
      cases haux : idxOfAux x cs with
      | none => rw [haux] at h; cases h
      | some m =>
        rw [haux] at h
        have hnm : m + 1 = n := by
          have := Option.some.inj h
          simpa using this
        subst hnm
        simpa using ih x m haux

/-- `closeWindow` at an `indexOf` result never raises. -/
theorem closeWindow_idxOf_some (x : Nat) (cs : List Nat) :
    ∃ r, closeWindow (idxOf x cs) cs = some r := by
  unfold idxOf
  cases haux : idxOfAux x cs with
  | none => exact ⟨(cs, []), rfl⟩
  | some n =>
    show ∃ r, closeWindow ((n : Int)) cs = some r
    have hget := idxOfAux_get cs x n haux
    by_cases hn : (n : Int) = -1
    · exact absurd hn (by omega)
    · refine ⟨(cs.eraseIdx n, [Ev.sinkComplete x, Ev.handleCancel x]), ?_⟩
      unfold closeWindow
      rw [if_neg hn, if_neg (by omega)]
      have h1 : ((n : Int)).toNat = n := by omega
      rw [h1, hget]

/-- `closeWindow` at `length - 1` never raises. -/
theorem closeWindow_last_some (cs : List Nat) :
    ∃ r, closeWindow ((cs.length : Int) - 1) cs = some r := by
  cases hcs : cs with
  | nil => exact ⟨([], []), rfl⟩
  | cons c cs2 =>
    by_cases hlast : (((c :: cs2).length : Int) - 1) = -1
    · exact absurd hlast (by simp)
    · cases hget : (c :: cs2).get? ((((c :: cs2).length : Int) - 1)).toNat with
      | none =>
        have hlen := List.get?_eq_none.mp hget
        exact absurd hlen (by simp only [List.length_cons]; omega)
      | some y =>
        refine ⟨((c :: cs2).eraseIdx ((((c :: cs2).length : Int) - 1)).toNat,
          [Ev.sinkComplete y, Ev.handleCancel y]), ?_⟩
        unfold closeWindow
        rw [if_neg hlast, if_neg (by omega), hget]

end WindowToggle

namespace WindowToggle

theorem closingNext_total (tag : Nat) {s : WTState} {cs : List Nat}
    (h : s.contexts = some cs) :
    ∃ s1 evs cs1, notifyNextClosing tag s = some (s1, evs) ∧ s1.contexts = some cs1 := by
  obtain ⟨co, nid, st⟩ := s
  cases h
  obtain ⟨⟨cs1, evs⟩, hr⟩ := closeWindow_idxOf_some tag cs
  refine ⟨⟨some cs1, nid, st⟩, evs, cs1, ?_, rfl⟩
  unfold notifyNextClosing
  simp only
  rw [hr]

theorem syncNexts_total (id : Nat) : ∀ (k : Nat) {s : WTState} {cs : List Nat},
    s.contexts = some cs →
    ∃ s1 evs cs1, syncNexts id k s = some (s1, evs) ∧ s1.contexts = some cs1 := by
  intro k
  induction k with
  | zero =>
    intro s cs h
    exact ⟨s, [], cs, rfl, h⟩
  | succ k ih =>
    intro s cs h
    obtain ⟨sa, evsa, csa, ha, hactx⟩ := closingNext_total id h
    obtain ⟨sb, evsb, csb, hb, hbctx⟩ := ih hactx
    refine ⟨sb, evsa ++ evsb, csb, ?_, hbctx⟩
    unfold syncNexts
    rw [ha]
    simp only
    rw [hb]

theorem notifyComplete_none_tag {s : WTState} {cs : List Nat}
    (h : s.contexts = some cs) :
    notifyComplete false none s = some (s, []) := by
  obtain ⟨co, nid, st⟩ := s
  cases h
  unfold notifyComplete
  rw [if_neg (by simp)]
  simp only
  rw [closeWindow_neg_one]

theorem subscribeSync_total {id emits : Nat} {term : NotifTerm} {s : WTState}
    {cs : List Nat}
    (hctx : s.contexts = some cs) (hterm : term.isErr = false) :
    ∃ s1 evs cs1, subscribeSync id emits term s = some (s1, evs) ∧ s1.contexts = some cs1 := by
  obtain ⟨sa, evsa, csa, ha, hactx⟩ := syncNexts_total id emits hctx
  cases term with
  | stayOpen =>
    refine ⟨sa, evsa, csa, ?_, hactx⟩
    unfold subscribeSync
    rw [ha]
  | done =>
    refine ⟨sa, evsa ++ [], csa, ?_, hactx⟩
    unfold subscribeSync
    rw [ha]
    simp only
    rw [notifyComplete_none_tag hactx]
  | err e => cases hterm

theorem subscribeSync_zero_done {s : WTState} {cs : List Nat}
    (h : s.contexts = some cs) (id : Nat) :
    subscribeSync id 0 NotifTerm.done s = some (s, []) := by
  unfold subscribeSync syncNexts
  simp only
  rw [notifyComplete_none_tag h]
  rfl

theorem closeWindow_snoc (cs : List Nat) (x : Nat) :
    closeWindow (((cs ++ [x]).length : Int) - 1) (cs ++ [x]) =
      some (cs, [Ev.sinkComplete x, Ev.handleCancel x]) := by
  have h1 : (((cs ++ [x]).length : Int) - 1) = (cs.length : Int) := by
    simp only [List.length_append, List.length_cons, List.length_nil]
    omega
  rw [h1]
  have := closeWindow_append cs x []
  simpa using this

end WindowToggle

namespace WindowToggle

/-- C5: for every source value delivered while the coordinator is not
terminated, every context in the active set receives that value on its sink
via `next`, in set (insertion) order, and `_next` performs no mutation of the
set; when `contexts` is the terminated sentinel the call is a no-op.  Also,
the `Subscriber.next` guard makes the dispatched source-`next` step a no-op
once stopped. -/
theorem c5_source_fanout :
    (∀ (cs : List Nat) (nid : Nat) (st : Bool) (v : Nat),
      wtNext v ⟨some cs, nid, st⟩ = (⟨some cs, nid, st⟩, cs.map fun id => Ev.sinkNext id v)) ∧
    (∀ (nid : Nat) (st : Bool) (v : Nat),
      wtNext v ⟨none, nid, st⟩ = (⟨none, nid, st⟩, [])) ∧
    (∀ (co : Option (List Nat)) (nid : Nat) (v : Nat),
      step (Act.srcNext v) ⟨co, nid, true⟩ = some (⟨co, nid, true⟩, [])) :=
  ⟨fun _ _ _ _ => rfl, fun _ _ _ => rfl, fun _ _ _ => rfl⟩

/-- C6: when the source completes on a live coordinator, the contexts field
is set to the `null` sentinel and every previously active context, in set
order, receives `complete` on its sink followed by `cancel` on its handle,
after which the downstream consumer receives `complete`. -/
theorem c6_source_complete (cs : List Nat) (nid : Nat) :
    completeG ⟨some cs, nid, false⟩ =
      (⟨none, nid, true⟩,
        (cs.flatMap fun id => [Ev.sinkComplete id, Ev.handleCancel id]) ++ [Ev.downComplete]) :=
  completeG_live cs nid

/-- C7: when the coordinator is cancelled externally while live, the contexts
field is set to the `null` sentinel and every previously active context, in
set order, has its sink cancelled (`unsubscribe`, not `complete`) and its
handle cancelled; no notification of any kind is sent downstream. -/
theorem c7_external_cancel (cs : List Nat) (nid : Nat) :
    unsubG ⟨some cs, nid, false⟩ =
      (⟨none, nid, true⟩, cs.flatMap fun id => [Ev.sinkCancel id, Ev.handleCancel id]) ∧
    (cs.flatMap fun id => [Ev.sinkCancel id, Ev.handleCancel id]).countP isDownEv = 0 := by
  refine ⟨unsubG_live cs nid, ?_⟩
  rw [List.countP_eq_zero]
  intro ev hev
  rcases List.mem_flatMap.mp hev with ⟨j, _, hj⟩
  simp only [List.mem_cons, List.not_mem_nil, or_false] at hj
  rcases hj with rfl | rfl
  · simp [isDownEv]
  · simp [isDownEv]

/-- C4: when the closing selector throws on an opening value, the exception
is caught (`notifyNext` still returns rather than raising): the coordinator
performs the error terminal transition with that exception as cause, the
fresh-identifier counter is unchanged (no context, sink or handle is
created), and no window is delivered downstream. -/
theorem c4_selector_throw (cs : List Nat) (nid e : Nat) :
    notifyNextOpening (SelRes.fault e) ⟨some cs, nid, false⟩ =
      some (⟨none, nid, true⟩,
        (cs.flatMap fun id => [Ev.sinkError id e, Ev.handleCancel id]) ++ [Ev.downError e]) ∧
    ((cs.flatMap fun id => [Ev.sinkError id e, Ev.handleCancel id]) ++ [Ev.downError e]).countP
      isDownNext = 0 := by
  constructor
  · rfl
  · rw [List.countP_append, List.countP_eq_zero.mpr, List.countP_eq_zero.mpr]
    · intro ev hev
      simp only [List.mem_cons, List.not_mem_nil, or_false] at hev
      subst hev
      simp [isDownNext]
    · intro ev hev
      rcases List.mem_flatMap.mp hev with ⟨j, _, hj⟩
      simp only [List.mem_cons, List.not_mem_nil, or_false] at hj
      rcases hj with rfl | rfl
      · simp [isDownNext]
      · simp [isDownNext]

/-- C10: `closeWindow` is frame-preserving.  A call with index `-1` changes
nothing; a call at any in-range index removes exactly the context at that
position, preserving the relative order of all the others, and the only
effects are the `complete` on that context's sink and the `cancel` on its
handle; and every successful non-`-1` call is of that shape. -/
theorem c10_closeWindow_frame :
    (∀ cs : List Nat, closeWindow (-1) cs = some (cs, [])) ∧
    (∀ (t : List Nat) (x : Nat) (d : List Nat),
      closeWindow (t.length : Int) (t ++ x :: d) =
        some (t ++ d, [Ev.sinkComplete x, Ev.handleCancel x])) ∧
    (∀ (i : Int) (cs cs1 : List Nat) (evs : List Ev),
      closeWindow i cs = some (cs1, evs) → i ≠ -1 →
      ∃ t x d, cs = t ++ x :: d ∧ cs1 = t ++ d ∧
        evs = [Ev.sinkComplete x, Ev.handleCancel x]) := by
  refine ⟨closeWindow_neg_one, closeWindow_append, ?_⟩
  intro i cs cs1 evs h hne
  rcases closeWindow_shape h with ⟨hcs, hevs⟩ | hsh
  · exfalso
    subst hevs
    unfold closeWindow at h
    rw [if_neg hne] at h
    by_cases h2 : i < 0
    · rw [if_pos h2] at h
      cases h
    · rw [if_neg h2] at h
      cases hg : cs.get? i.toNat with
      | none => rw [hg] at h; cases h
      | some x =>
        rw [hg] at h
        have heq := Option.some.inj h
        have hevs2 : [Ev.sinkComplete x, Ev.handleCancel x] = ([] : List Ev) := by
          have := congrArg Prod.snd heq
          simpa using this
        cases hevs2
  · exact hsh

/-- C10 witness: closing index 0 of the two-context set removes exactly the
first context. -/
theorem c10_witness :
    ∃ t x d, ([3, 7] : List Nat) = t ++ x :: d ∧ ([7] : List Nat) = t ++ d ∧
      ([Ev.sinkComplete 3, Ev.handleCancel 3] : List Ev) =
        [Ev.sinkComplete x, Ev.handleCancel x] :=
  c10_closeWindow_frame.2.2 0 [3, 7] [7] [Ev.sinkComplete 3, Ev.handleCancel 3]
    (by rfl) (by decide)

end WindowToggle

namespace WindowToggle

/-- C3: on any fault (source error, auxiliary/notifier error, or selector
throw — all of which dispatch to the same guarded `error` transition), a live
coordinator delivers `error(cause)` to every active context's sink and
cancels its handle, in set order, strictly before the single downstream
`error(cause)`; a stopped coordinator emits nothing further; and over any run
the downstream consumer receives at most one `error`. -/
theorem c3_fault_propagation :
    (∀ (cs : List Nat) (nid e : Nat),
      errorG e ⟨some cs, nid, false⟩ =
        (⟨none, nid, true⟩,
          (cs.flatMap fun id => [Ev.sinkError id e, Ev.handleCancel id]) ++ [Ev.downError e])) ∧
    (∀ (co : Option (List Nat)) (nid e : Nat),
      errorG e ⟨co, nid, true⟩ = (⟨co, nid, true⟩, [])) ∧
    (∀ (s : WTState) (e : Nat),
      step (Act.srcError e) s = some (errorG e s) ∧
      step (Act.auxError e) s = some (errorG e s) ∧
      notifyNextOpening (SelRes.fault e) s = some (errorG e s)) ∧
    (∀ (as : List Act) (s1 : WTState) (tr : List Ev),
      run initState as = some (s1, tr) → tr.countP isDownError ≤ 1) := by
  refine ⟨errorG_live, errorG_stopped, fun s e => ⟨rfl, rfl, rfl⟩, ?_⟩
  intro as s1 tr hr
  have hInv := invOfRun hr
  have hmono : tr.countP isDownError ≤ tr.countP isDownTerm := by
    refine List.countP_mono_left ?_
    intro ev _ hev
    cases ev <;> simp_all [isDownError, isDownTerm]
  exact hmono.trans hInv.downOnce

/-- C3 witness: a source fault on the freshly initialised coordinator yields
a single downstream error. -/
theorem c3_witness : List.countP isDownError [Ev.downError 5] ≤ 1 :=
  c3_fault_propagation.2.2.2 [Act.srcError 5] ⟨none, 0, true⟩ [Ev.downError 5] (by rfl)

/-- C8: completion of the openings stream is a no-op for the coordinator
(state unchanged, no event to any sink or downstream), while completion of a
closing notifier carrying its context tag performs Close-One-Window for
exactly that context: it alone is removed (order of the others preserved),
its sink completed and its handle cancelled. -/
theorem c8_openings_vs_notifier_completion :
    (∀ (tag : Option Nat) (s : WTState), notifyComplete true tag s = some (s, [])) ∧
    (∀ (t1 : List Nat) (x : Nat) (d : List Nat) (nid : Nat) (st : Bool), x ∉ t1 →
      notifyComplete false (some x) ⟨some (t1 ++ x :: d), nid, st⟩ =
        some (⟨some (t1 ++ d), nid, st⟩, [Ev.sinkComplete x, Ev.handleCancel x])) := by
  constructor
  · intro tag s
    rfl
  · intro t1 x d nid st hx
    unfold notifyComplete
    rw [if_neg (by simp)]
    simp only
    rw [idxOf_found t1 x d hx, closeWindow_append]

/-- C8 witness: completing the notifier tagged with context 5 closes exactly
context 5 of the set `[3, 5]`. -/
theorem c8_witness :
    notifyComplete false (some 5) ⟨some [3, 5], 2, false⟩ =
      some (⟨some [3], 2, false⟩, [Ev.sinkComplete 5, Ev.handleCancel 5]) := by
  have h := c8_openings_vs_notifier_completion.2 [3] 5 [] 2 false (by decide)
  simpa using h

end WindowToggle

namespace WindowToggle

theorem opening_empty_done (cs : List Nat) (nid : Nat) (st : Bool) :
    notifyNextOpening (SelRes.notif 0 NotifTerm.done) ⟨some cs, nid, st⟩ =
      some (⟨some cs, nid + 1, st⟩,
        [Ev.sinkComplete nid, Ev.handleCancel nid, Ev.downNext nid]) := by
  unfold notifyNextOpening
  simp only
  rw [subscribeSync_zero_done
    (show (⟨some (cs ++ [nid]), nid + 1, st⟩ : WTState).contexts = some (cs ++ [nid]) from rfl)
    nid]
  simp only [NotifTerm.closedSync, if_true]
  rw [closeWindow_snoc]
  rfl

theorem opening_delivery (cs : List Nat) (nid : Nat) (st : Bool) (emits : Nat)
    (term : NotifTerm) (hterm : term.isErr = false) :
    ∃ s1 evs, notifyNextOpening (SelRes.notif emits term) ⟨some cs, nid, st⟩ = some (s1, evs) ∧
      evs.getLast? = some (Ev.downNext nid) := by
  obtain ⟨s2, evsa, cs2, hsub, hctx⟩ := subscribeSync_total
    (show (⟨some (cs ++ [nid]), nid + 1, st⟩ : WTState).contexts = some (cs ++ [nid]) from rfl)
    hterm
  unfold notifyNextOpening
  simp only
  rw [hsub]
  simp only
  cases hcl : term.closedSync with
  | false =>
    simp only [Bool.false_eq_true, if_false]
    exact ⟨s2, evsa ++ [Ev.downNext nid], rfl, List.getLast?_concat _⟩
  | true =>
    simp only [if_true]
    obtain ⟨co2, nid2, st2⟩ := s2
    simp only at hctx
    subst hctx
    simp only
    obtain ⟨⟨cs3, evs2⟩, hcw⟩ := closeWindow_last_some cs2
    rw [hcw]
    refine ⟨⟨some cs3, nid2, st2⟩, evsa ++ evs2 ++ [Ev.downNext nid], rfl, ?_⟩
    exact List.getLast?_concat _

/-- The claim C1 as stated: whenever subscribing to the closing notifier
synchronously yields a closed handle, Close-One-Window is performed for
exactly the context created for this opening (the set returns to its prior
contents and no other sink is completed) before the window is delivered, and
in every case the window is delivered downstream. -/
def ClaimC1 : Prop := ∀ (cs : List Nat) (nid emits : Nat) (term : NotifTerm),
  (term.closedSync = true →
    ∃ s1 evs, notifyNextOpening (SelRes.notif emits term) ⟨some cs, nid, false⟩ =
        some (s1, evs) ∧
      s1.contexts = some cs ∧ Ev.sinkComplete nid ∈ evs ∧
      ∀ j, Ev.sinkComplete j ∈ evs → j = nid) ∧
  (∃ s1 evs, notifyNextOpening (SelRes.notif emits term) ⟨some cs, nid, false⟩ =
      some (s1, evs) ∧
    Ev.downNext nid ∈ evs)

/-- C1 counterexample: with one window (context 0) already open, an opening
whose closing notifier synchronously emits once and then completes makes the
code close the *other* window: the reentrant `notifyNext` removes the new
context 1, after which `closeWindow(contexts.length - 1)` completes context
0's sink, so the closure is not performed for exactly the new context. -/
theorem c1_counterexample : ¬ ClaimC1 := by
  intro h
  obtain ⟨s1, evs, heq, hctx, _, honly⟩ := (h [0] 1 1 NotifTerm.done).1 rfl
  have hval : notifyNextOpening (SelRes.notif 1 NotifTerm.done) ⟨some [0], 1, false⟩ =
      some (⟨some [], 2, false⟩,
        [Ev.sinkComplete 1, Ev.handleCancel 1, Ev.sinkComplete 0, Ev.handleCancel 0,
          Ev.downNext 1]) := by decide
  rw [hval] at heq
  injection heq with heq2
  cases heq2
  exact absurd (honly 0 (by decide)) (by decide)

/-- C1 (amended): if the closing notifier synchronously completes *without
emitting* (an exhausted, empty producer), Close-One-Window is performed for
exactly the context created for this opening — it is removed (set restored to
its prior contents), its sink completed and its handle cancelled — before the
window is delivered downstream; and for every notifier that does not
synchronously error, the delivery of the window downstream is the final
action of `notifyNext`. -/
theorem c1_closed_handle_ordering (cs : List Nat) (nid : Nat) (st : Bool)
    (emits : Nat) (term : NotifTerm) (hterm : term.isErr = false) :
    (notifyNextOpening (SelRes.notif 0 NotifTerm.done) ⟨some cs, nid, st⟩ =
      some (⟨some cs, nid + 1, st⟩,
        [Ev.sinkComplete nid, Ev.handleCancel nid, Ev.downNext nid])) ∧
    (∃ s1 evs, notifyNextOpening (SelRes.notif emits term) ⟨some cs, nid, st⟩ =
        some (s1, evs) ∧ evs.getLast? = some (Ev.downNext nid)) :=
  ⟨opening_empty_done cs nid st, opening_delivery cs nid st emits term hterm⟩

/-- C1 witness: an empty closing notifier on the fresh coordinator closes the
new window and then delivers it. -/
theorem c1_witness :
    notifyNextOpening (SelRes.notif 0 NotifTerm.done) ⟨some [], 0, false⟩ =
      some (⟨some [], 1, false⟩,
        [Ev.sinkComplete 0, Ev.handleCancel 0, Ev.downNext 0]) :=
  (c1_closed_handle_ordering [] 0 false 0 NotifTerm.done (by decide)).1

/-- C2: over any run of the coordinator, every window sink receives at most
one of `complete`/`cancel`, never a `next` after either, and a created
context is in the active set exactly when its sink has received no terminal
(the `null` sentinel counting as the empty set). -/
theorem c2_sink_terminal_once (as : List Act) (s1 : WTState) (tr : List Ev)
    (hr : run initState as = some (s1, tr)) (id : Nat) :
    tr.countP (isCC id) ≤ 1 ∧
    okAfterP (isCC id) (isNextEv id) tr = true ∧
    (id < s1.nextId → (id ∈ active s1 ↔ tr.countP (isTerm id) = 0)) := by
  have hInv := invOfRun hr
  refine ⟨?_, ?_, ?_⟩
  · have hmono : tr.countP (isCC id) ≤ tr.countP (isTerm id) := by
      refine List.countP_mono_left ?_
      intro ev _ hev
      cases ev <;> simp_all [isCC, isTerm]
    exact hmono.trans (hInv.termOnce id)
  · refine okAfterP_mono ?_ (hInv.afterTerm id)
    intro ev hev
    cases ev <;> simp_all [isCC, isTerm]
  · intro hlt
    constructor
    · intro hmem
      exact hInv.activeClean id hmem
    · intro hz
      by_contra hnin
      have := hInv.retired id hlt hnin
      omega

/-- C2 witness: a run that opens one never-closing window and fans one source
value out to it satisfies the per-sink terminal discipline for context 0. -/
theorem c2_witness :
    List.countP (isCC 0) [Ev.downNext 0, Ev.sinkNext 0 7] ≤ 1 ∧
    okAfterP (isCC 0) (isNextEv 0) [Ev.downNext 0, Ev.sinkNext 0 7] = true ∧
    (0 ∈ active ⟨some [0], 1, false⟩ ↔
      List.countP (isTerm 0) [Ev.downNext 0, Ev.sinkNext 0 7] = 0) := by
  have h := c2_sink_terminal_once
    [Act.openingNext (SelRes.notif 0 NotifTerm.stayOpen), Act.srcNext 7]
    ⟨some [0], 1, false⟩ [Ev.downNext 0, Ev.sinkNext 0 7] (by decide) 0
  exact ⟨h.1, h.2.1, h.2.2 (by decide)⟩

end WindowToggle
